import Mathlib

/-!
Verification of the FASTA cleaning automaton from `src/main.rs` of the
`fasta-cleaner` repository.

The program `clean_fasta_file` reads an input byte stream one byte at a
time, driving a finite state machine (`FastaState` in the source), and
writes a normalized byte stream: header lines are copied verbatim and
terminated with a single `\n`, sequence bytes are uppercased and filtered
to the canonical bases A/C/G/T, and the sequence is re-wrapped to a width
inferred from the raw character count of the first sequence line of the
first record that has a sequence body.

We embed the program shallowly: bytes are `Nat` (the program performs no
arithmetic that can overflow a `usize` on any input we quantify over, and
the counters only ever grow by one per input byte), the input stream is a
`List Nat`, the output stream is the returned `List Nat`, and a panic
(`panic!` in the source) is `none`.  The read loop of the source consumes
bytes until end of input and then runs the per-state `Eof` arm once; we
factor it accordingly into `stepChar` (one `ReadOk::Ok(byte)` arm),
`eofOutput` (the `ReadOk::Eof` arm) and `processAll` (the loop).
-/

set_option maxRecDepth 100000

/-- `u8::is_ascii_whitespace` from Rust: space, horizontal tab, newline,
form feed, carriage return. -/
def is_ascii_whitespace (c : Nat) : Bool :=
  c == 32 || c == 9 || c == 10 || c == 12 || c == 13

/-- `u8::to_ascii_uppercase` from Rust: map `a`..`z` to `A`..`Z`, leave
every other byte unchanged. -/
def to_ascii_uppercase (c : Nat) : Nat :=
  if 97 ≤ c ∧ c ≤ 122 then c - 32 else c

/-- The test `matches!(character, b'A' | b'C' | b'G' | b'T')` from the
source, applied to the already-uppercased byte. -/
def isCanonicalBase (c : Nat) : Bool :=
  c == 65 || c == 67 || c == 71 || c == 84

/-- The pattern `b'\n' | b'\r'` used by every state of the source to
recognize a line terminator. -/
def isLineBreak (c : Nat) : Bool :=
  c == 10 || c == 13

/-- The state enum `FastaState` of `src/main.rs`, with the same variants
and the same per-variant data (an `Option<usize>` width for the header
states, the raw and output counters for the measuring state, and the
fixed width plus output counter for the steady sequence states). -/
inductive FastaState where
  | Init : FastaState
  | RecordHeader (width : Option Nat) : FastaState
  | RecordHeaderLineBreak (width : Option Nat) : FastaState
  | RecordSequenceWithoutWidth (current_width : Nat) (current_output_row_width : Nat) : FastaState
  | RecordSequenceLineBreak (width : Nat) (current_output_row_width : Nat) : FastaState
  | RecordSequence (width : Nat) (current_output_row_width : Nat) : FastaState
deriving DecidableEq, Repr

open FastaState

/-- One iteration of the loop in `clean_fasta_file` for the case in which
`read_character` returns `ReadOk::Ok(c)`: the next state and the bytes
written to the output sink during that iteration, or `none` when the
iteration panics (non-whitespace before the first record, or `>` within a
sequence). Each match arm transcribes the corresponding arm of the source. -/
def stepChar : FastaState → Nat → Option (FastaState × List Nat)
  | Init, c =>
    if c == 62 then some (RecordHeader none, [62])
    else if is_ascii_whitespace c then some (Init, [])
    else none
  | RecordHeader width, c =>
    if isLineBreak c then some (RecordHeaderLineBreak width, [10])
    else some (RecordHeader width, [c])
  | RecordHeaderLineBreak width, c =>
    if isLineBreak c then some (RecordHeaderLineBreak width, [])
    else if c == 62 then some (RecordHeader width, [62])
    else
      let u := to_ascii_uppercase c
      match width with
      | some w => some (RecordSequence w 1, [u])
      | none => some (RecordSequenceWithoutWidth 1 1, [u])
  | RecordSequenceWithoutWidth current_width current_output_row_width, c =>
    if isLineBreak c then
      if current_output_row_width == current_width then
        some (RecordSequenceLineBreak current_width 0, [10])
      else
        some (RecordSequenceLineBreak current_width current_output_row_width, [])
    else if c == 62 then none
    else
      let u := to_ascii_uppercase c
      if isCanonicalBase u then
        some (RecordSequenceWithoutWidth (current_width + 1) (current_output_row_width + 1), [u])
      else
        some (RecordSequenceWithoutWidth (current_width + 1) current_output_row_width, [])
  | RecordSequenceLineBreak width current_output_row_width, c =>
    if isLineBreak c then
      some (RecordSequenceLineBreak width current_output_row_width, [])
    else if c == 62 then
      if current_output_row_width > 0 then some (RecordHeader (some width), [10, 62])
      else some (RecordHeader (some width), [62])
    else
      let u := to_ascii_uppercase c
      let flushed := current_output_row_width == width
      let row := if flushed then 0 else current_output_row_width
      let flushOut : List Nat := if flushed then [10] else []
      if isCanonicalBase u then some (RecordSequence width (row + 1), flushOut ++ [u])
      else some (RecordSequence width row, flushOut)
  | RecordSequence width current_output_row_width, c =>
    if isLineBreak c then
      if current_output_row_width == width then
        some (RecordSequenceLineBreak width 0, [10])
      else
        some (RecordSequenceLineBreak width current_output_row_width, [])
    else if c == 62 then none
    else
      let u := to_ascii_uppercase c
      let flushed := current_output_row_width == width
      let row := if flushed then 0 else current_output_row_width
      let flushOut : List Nat := if flushed then [10] else []
      if isCanonicalBase u then some (RecordSequence width (row + 1), flushOut ++ [u])
      else some (RecordSequence width row, flushOut)

/-- The `ReadOk::Eof` arm of each state: the three sequence states write a
single `\n` before breaking out of the loop, every other state breaks with
no further output. -/
def eofOutput : FastaState → List Nat
  | Init => []
  | RecordHeader _ => []
  | RecordHeaderLineBreak _ => []
  | RecordSequenceWithoutWidth _ _ => [10]
  | RecordSequenceLineBreak _ _ => [10]
  | RecordSequence _ _ => [10]

/-- The read loop of `clean_fasta_file` up to (but not including) end of
input: consume every byte of `input` from state `s`, collecting the bytes
written; `none` when some iteration panics. -/
def processAll : FastaState → List Nat → Option (FastaState × List Nat)
  | s, [] => some (s, [])
  | s, c :: cs =>
    match stepChar s c with
    | none => none
    | some (s₁, o₁) =>
      match processAll s₁ cs with
      | none => none
      | some (s₂, o₂) => some (s₂, o₁ ++ o₂)

/-- The whole of `clean_fasta_file` on an input byte list: run the loop
from `FastaState::Init` until end of input, then the `Eof` arm of the
final state. `none` models the panics of the source, `some out` models
clean termination having written exactly `out` to the sink. -/
def clean_fasta_file (input : List Nat) : Option (List Nat) :=
  match processAll Init input with
  | none => none
  | some (s, o) => some (o ++ eofOutput s)

/-- The byte string
`"\r>WGCaC\n\nAACCcxXAA\naacc\n.ef34\nCGG\ntgtcgcgtagcgtgatcgtgtagtcgtag\r.\r>f\nTTT"`,
the input of the repository's test `tests::test`. -/
def testInput : List Nat :=
  [13, 62, 87, 71, 67, 97, 67, 10, 10, 65, 65, 67, 67, 99, 120, 88, 65, 65,
   10, 97, 97, 99, 99, 10, 46, 101, 102, 51, 52, 10, 67, 71, 71, 10, 116,
   103, 116, 99, 103, 99, 103, 116, 97, 103, 99, 103, 116, 103, 97, 116, 99,
   103, 116, 103, 116, 97, 103, 116, 99, 103, 116, 97, 103, 13, 46, 13, 62,
   102, 10, 84, 84, 84]

/-- The byte string
`">WGCaC\nAACCCAAAA\nCCCGGTGTC\nGCGTAGCGT\nGATCGTGTA\nGTCGTAG\n>f\nTTT\n"`,
the expected output of the repository's test `tests::test`. -/
def testOutput : List Nat :=
  [62, 87, 71, 67, 97, 67, 10, 65, 65, 67, 67, 67, 65, 65, 65, 65, 10, 67,
   67, 67, 71, 71, 84, 71, 84, 67, 10, 71, 67, 71, 84, 65, 71, 67, 71, 84,
   10, 71, 65, 84, 67, 71, 84, 71, 84, 65, 10, 71, 84, 67, 71, 84, 65, 71,
   10, 62, 102, 10, 84, 84, 84, 10]

/-- **C1.** For the concrete input byte string
`"\r>WGCaC\n\nAACCcxXAA\naacc\n.ef34\nCGG\ntgtcgcgtagcgtgatcgtgtagtcgtag\r.\r>f\nTTT"`,
`clean_fasta_file` writes exactly the output byte string
`">WGCaC\nAACCCAAAA\nCCCGGTGTC\nGCGTAGCGT\nGATCGTGTA\nGTCGTAG\n>f\nTTT\n"`
to the sink and terminates without error. -/
theorem c1_reference_scenario : clean_fasta_file testInput = some testOutput := by
  decide

/-- **C6.** `clean_fasta_file` fails (panics, modelled as `none`) on the
input `"X>h\nA\n"` — a non-whitespace byte before the first `>` header —
and on the input `">h\nAC>G\n"` — a `>` byte inside a sequence line. -/
theorem c6_malformed_inputs :
    clean_fasta_file [88, 62, 104, 10, 65, 10] = none ∧
    clean_fasta_file [62, 104, 10, 65, 67, 62, 71, 10] = none := by
  decide

/-!
Line-structure scanners over output byte strings

To state invariants about the *lines* of an output byte string we scan it
left to right, tracking whether the scanner is at the start of a line,
inside a header line (a line whose first byte is `>`), or inside a
sequence line (any other line). These definitions formalize the spec's
wording and are therefore deliberately *not* read off the source.
-/

/-- Scanner position: start of a line, inside a header line, or inside a
sequence line. -/
inductive LineMode where
  | start : LineMode
  | header : LineMode
  | seq : LineMode
deriving DecidableEq, Repr

/-- Alphabet check over an output byte string (formalizing the spec's
alphabet invariant): every byte of every line that does not begin with
`>` is one of the four uppercase canonical bases `A`, `C`, `G`, `T`. -/
def alphaScan : LineMode → List Nat → Bool
  | _, [] => true
  | LineMode.start, b :: o =>
    if b == 62 then alphaScan LineMode.header o
    else if b == 10 then alphaScan LineMode.start o
    else isCanonicalBase b && alphaScan LineMode.seq o
  | LineMode.header, b :: o =>
    if b == 10 then alphaScan LineMode.start o
    else alphaScan LineMode.header o
  | LineMode.seq, b :: o =>
    if b == 10 then alphaScan LineMode.start o
    else isCanonicalBase b && alphaScan LineMode.seq o

/-- **C2.** Claimed: every byte of an output sequence line is an
uppercase canonical base, because the first sequence byte after a header
boundary is filtered like every other sequence byte. The code instead
writes the first sequence byte of a record to the output uppercased but
*without* the canonical-base filter (the `RecordHeaderLineBreak` arm,
lines 134–147 of `src/main.rs`): on input `">h\n.\n"` it terminates
without error and the output `">h\n.\n\n"` has the byte `.` on a sequence
line, contradicting both the claim and the crate's own description
("Upper case all genome characters and remove all non-ACGT characters"). -/
theorem c2_first_sequence_byte_unfiltered :
    clean_fasta_file [62, 104, 10, 46, 10] = some [62, 104, 10, 46, 10, 10] ∧
    alphaScan LineMode.start [62, 104, 10, 46, 10, 10] = false := by
  decide

/-- **C3, counterexample.** Idempotence fails: on input `">h\nA"` the
program outputs `">h\nA\n"` (the unconditional end-of-input newline), but
on `">h\nA\n"` it outputs `">h\nA\n\n"` — the line break now triggers a
row flush (the inferred width is 1 and the row is full) *and* the
end-of-input newline is still emitted, so the second pass is not
byte-identical to the first. -/
theorem c3_idempotence_counterexample :
    clean_fasta_file [62, 104, 10, 65] = some [62, 104, 10, 65, 10] ∧
    clean_fasta_file [62, 104, 10, 65, 10] = some [62, 104, 10, 65, 10, 10] ∧
    ([62, 104, 10, 65, 10, 10] : List Nat) ≠ [62, 104, 10, 65, 10] := by
  decide

/-- **C3, amended.** Idempotence does not hold for every input (see the
counterexample), but it does hold on the reference scenario: running
`clean_fasta_file` on the output
`">WGCaC\nAACCCAAAA\nCCCGGTGTC\nGCGTAGCGT\nGATCGTGTA\nGTCGTAG\n>f\nTTT\n"`
of the repository's test reproduces that exact byte string. -/
theorem c3_idempotent_on_reference_output :
    clean_fasta_file testOutput = some testOutput := by
  decide

/-- The three states of the source in which the `Eof` arm writes a final
newline: `RecordSequenceWithoutWidth`, `RecordSequenceLineBreak` and
`RecordSequence`. -/
def isSequenceState : FastaState → Bool
  | RecordSequenceWithoutWidth _ _ => true
  | RecordSequenceLineBreak _ _ => true
  | RecordSequence _ _ => true
  | _ => false

/-- **C7.** If end of input is reached while the automaton is in a
sequence state or sequence-boundary state (width known or still being
measured), `clean_fasta_file` emits exactly one `\n` byte after
everything written so far and stops — unconditionally, regardless of
whether the current output row is empty and regardless of whether the
input ended with a line terminator. -/
theorem c7_unconditional_trailing_newline (x : List Nat) (s : FastaState) (o : List Nat)
    (h : processAll Init x = some (s, o)) (hs : isSequenceState s = true) :
    clean_fasta_file x = some (o ++ [10]) := by
  unfold clean_fasta_file
  rw [h]
  cases s <;> simp_all [isSequenceState, eofOutput]

/-- Witness for C7 at the concrete input `">h\nA\n"`: end of input is
reached in `RecordSequenceLineBreak` with an *empty* current output row
(the record ended exactly on the width boundary) and with the input
already ending in a line terminator, yet one more `\n` is emitted. -/
theorem c7_unconditional_trailing_newline_witness :
    processAll Init [62, 104, 10, 65, 10] =
      some (RecordSequenceLineBreak 1 0, [62, 104, 10, 65, 10]) ∧
    isSequenceState (RecordSequenceLineBreak 1 0) = true ∧
    clean_fasta_file [62, 104, 10, 65, 10] = some ([62, 104, 10, 65, 10] ++ [10]) :=
  ⟨by decide, by decide,
    c7_unconditional_trailing_newline [62, 104, 10, 65, 10]
      (RecordSequenceLineBreak 1 0) [62, 104, 10, 65, 10] (by decide) (by decide)⟩

/-!
Header processing lemmas
-/

/-- Unfolding `processAll` across one successfully consumed byte. -/
theorem processAll_cons_ok {s : FastaState} {c : Nat} {s₁ : FastaState} {o₁ : List Nat}
    (h : stepChar s c = some (s₁, o₁)) (cs : List Nat) :
    processAll s (c :: cs) = (processAll s₁ cs).map (fun p => (p.1, o₁ ++ p.2)) := by
  simp only [processAll, h]
  cases processAll s₁ cs with
  | none => rfl
  | some p => cases p; rfl

/-- Splitting the loop across a concatenation of inputs. -/
theorem processAll_append (a b : List Nat) (s : FastaState) :
    processAll s (a ++ b) = (processAll s a).bind (fun p =>
      (processAll p.1 b).map (fun q => (q.1, p.2 ++ q.2))) := by
  induction a generalizing s with
  | nil =>
    cases h : processAll s b with
    | none => simp [processAll, h]
    | some q => obtain ⟨s₂, o₂⟩ := q; simp [processAll, h]
  | cons c cs ih =>
    cases hstep : stepChar s c with
    | none => simp [processAll, hstep]
    | some p =>
      obtain ⟨s₁, o₁⟩ := p
      rw [List.cons_append, processAll_cons_ok hstep (cs ++ b), ih s₁,
        processAll_cons_ok hstep cs]
      cases processAll s₁ cs with
      | none => rfl
      | some q =>
        obtain ⟨s₂, o₂⟩ := q
        simp only [Option.some_bind, Option.map_some', Option.map_map]
        congr 1
        funext q
        simp [Function.comp, List.append_assoc]

/-- In `RecordHeader`, a block of non-terminator bytes is copied to the
output verbatim and the state does not change. -/
theorem processAll_header_block (w : Option Nat) (H rest : List Nat)
    (hH : ∀ b ∈ H, isLineBreak b = false) :
    processAll (RecordHeader w) (H ++ rest) =
      (processAll (RecordHeader w) rest).map (fun p => (p.1, H ++ p.2)) := by
  induction H with
  | nil =>
    cases h : processAll (RecordHeader w) rest with
    | none => simp [h]
    | some p => simp [h]
  | cons b H ih =>
    have hb : isLineBreak b = false := hH b (List.mem_cons_self b H)
    have hstep : stepChar (RecordHeader w) b = some (RecordHeader w, [b]) := by
      simp [stepChar, hb]
    rw [List.cons_append, processAll_cons_ok hstep (H ++ rest),
      ih (fun x hx => hH x (List.mem_cons_of_mem b hx))]
    cases processAll (RecordHeader w) rest with
    | none => rfl
    | some p => rfl

/-- In `RecordHeaderLineBreak`, a block of further line terminators is
silently absorbed: no output, no state change. -/
theorem processAll_absorb_breaks (w : Option Nat) (T rest : List Nat)
    (hT : ∀ b ∈ T, isLineBreak b = true) :
    processAll (RecordHeaderLineBreak w) (T ++ rest) =
      processAll (RecordHeaderLineBreak w) rest := by
  induction T with
  | nil => rfl
  | cons b T ih =>
    have hb : isLineBreak b = true := hT b (List.mem_cons_self b T)
    have hstep : stepChar (RecordHeaderLineBreak w) b = some (RecordHeaderLineBreak w, []) := by
      simp [stepChar, hb]
    rw [List.cons_append, processAll_cons_ok hstep (T ++ rest),
      ih (fun x hx => hT x (List.mem_cons_of_mem b hx))]
    cases processAll (RecordHeaderLineBreak w) rest with
    | none => rfl
    | some p => cases p; rfl

/-- A complete header line — non-terminator text `H` followed by a
terminator `t` — is consumed from `RecordHeader` by emitting `H ++ [10]`
and continuing in `RecordHeaderLineBreak` with the width unchanged. -/
theorem processAll_header_line (w : Option Nat) (H : List Nat) (t : Nat) (rest : List Nat)
    (hH : ∀ b ∈ H, isLineBreak b = false) (ht : isLineBreak t = true) :
    processAll (RecordHeader w) (H ++ t :: rest) =
      (processAll (RecordHeaderLineBreak w) rest).map (fun p => (p.1, H ++ 10 :: p.2)) := by
  have hstep : stepChar (RecordHeader w) t = some (RecordHeaderLineBreak w, [10]) := by
    simp [stepChar, ht]
  rw [processAll_header_block w H (t :: rest) hH, processAll_cons_ok hstep rest]
  cases processAll (RecordHeaderLineBreak w) rest with
  | none => rfl
  | some p => rfl

/-- **C8.** For every record, the header text between the leading `>` and
the header's line terminator is copied to the output byte-for-byte — no
case folding, no filtering, no reordering — and the terminator (`\n` or
`\r`) is replaced by a single `\n`: from the `RecordHeader` state (which
every record's header is processed in), consuming the header text `H`
followed by a terminator `t` emits exactly `H ++ [10]` and continues in
`RecordHeaderLineBreak` with the width unchanged. -/
theorem c8_header_passthrough (w : Option Nat) (H : List Nat) (t : Nat) (rest : List Nat)
    (hH : ∀ b ∈ H, isLineBreak b = false) (ht : isLineBreak t = true) :
    processAll (RecordHeader w) (H ++ t :: rest) =
      (processAll (RecordHeaderLineBreak w) rest).map (fun p => (p.1, H ++ 10 :: p.2)) :=
  processAll_header_line w H t rest hH ht

/-- Witness for C8: the header text `"a>b"` (which even contains a `>` and
a lowercase byte) is copied verbatim, and the `\r` terminator becomes `\n`. -/
theorem c8_header_passthrough_witness :
    (∀ b ∈ [97, 62, 98], isLineBreak b = false) ∧ isLineBreak 13 = true ∧
    processAll (RecordHeader none) ([97, 62, 98] ++ 13 :: []) =
      (processAll (RecordHeaderLineBreak none) []).map
        (fun p => (p.1, [97, 62, 98] ++ 10 :: p.2)) :=
  ⟨by decide, by decide,
    c8_header_passthrough none [97, 62, 98] 13 [] (by decide) (by decide)⟩

/-- **C9.** For every input in which a header line is immediately
followed — after its terminator, with any run of additional line
terminators absorbed — by another `>` header, the two normalized header
lines are adjacent in the output, with no sequence line and no blank
line emitted between them. `P` is an arbitrary input prefix whose
processing has just entered a header (so this covers the first header of
the file, a header after an empty-sequence record, and a header entered
after a sequence-bearing record with the width `w` already known, with
any leading whitespace inside `P`), `H₁` is that header's text, and
`rest` is an arbitrary continuation of the input: between the first
header's normalized `\n` and the second header's `>` nothing is
emitted, and the second header is processed from `RecordHeader` with the
same width, exactly like the first. -/
theorem c9_adjacent_headers (P o₀ : List Nat) (w : Option Nat) (H₁ : List Nat) (t₁ : Nat)
    (T rest : List Nat)
    (hP : processAll Init P = some (RecordHeader w, o₀))
    (hH₁ : ∀ b ∈ H₁, isLineBreak b = false) (ht₁ : isLineBreak t₁ = true)
    (hT : ∀ b ∈ T, isLineBreak b = true) :
    processAll Init (P ++ (H₁ ++ t₁ :: (T ++ 62 :: rest))) =
      (processAll (RecordHeader w) rest).map
        (fun p => (p.1, o₀ ++ (H₁ ++ (10 :: 62 :: p.2)))) := by
  have h62 : stepChar (RecordHeaderLineBreak w) 62 = some (RecordHeader w, [62]) := by
    simp [stepChar, isLineBreak]
  rw [processAll_append P (H₁ ++ t₁ :: (T ++ 62 :: rest)) Init, hP, Option.some_bind,
    processAll_header_line w H₁ t₁ (T ++ 62 :: rest) hH₁ ht₁,
    processAll_absorb_breaks w T (62 :: rest) hT, processAll_cons_ok h62 rest]
  cases processAll (RecordHeader w) rest with
  | none => rfl
  | some p => rfl

/-- Witness for C9 after a sequence-bearing record: the prefix
`">a\nAC\n>"` reaches the second record's header with the width already
fixed to 2; the header `"b"` is immediately followed (via `"\n\r"`) by a
third `>` header, and the output places `>` right after `"b\n"`. -/
theorem c9_adjacent_headers_witness :
    processAll Init [62, 97, 10, 65, 67, 10, 62] =
      some (RecordHeader (some 2), [62, 97, 10, 65, 67, 10, 62]) ∧
    processAll Init ([62, 97, 10, 65, 67, 10, 62] ++ ([98] ++ 10 :: ([13] ++ 62 :: []))) =
      (processAll (RecordHeader (some 2)) []).map
        (fun p => (p.1, [62, 97, 10, 65, 67, 10, 62] ++ ([98] ++ (10 :: 62 :: p.2)))) :=
  ⟨by decide,
    c9_adjacent_headers [62, 97, 10, 65, 67, 10, 62] [62, 97, 10, 65, 67, 10, 62]
      (some 2) [98] 10 [13] [] (by decide) (by decide) (by decide) (by decide)⟩

/-- **C10.** For every input that ends immediately after a header's line
terminator (possibly followed by further absorbed line terminators) —
i.e. end of input is reached in the header-boundary state — the run
terminates cleanly with no error and emits nothing further: the output
is the output of the prefix followed by that header's text and its
normalized `\n`, with no empty sequence line and no extra trailing
newline synthesized. `P` is an arbitrary input prefix whose processing
has just entered the final header (so this covers a header-only file,
multi-record files ending after their last header's terminator with the
width already known, and any leading whitespace inside `P`). -/
theorem c10_eof_after_header_terminator (P o₀ : List Nat) (w : Option Nat) (H : List Nat)
    (t : Nat) (T : List Nat)
    (hP : processAll Init P = some (RecordHeader w, o₀))
    (hH : ∀ b ∈ H, isLineBreak b = false) (ht : isLineBreak t = true)
    (hT : ∀ b ∈ T, isLineBreak b = true) :
    clean_fasta_file (P ++ (H ++ t :: T)) = some (o₀ ++ (H ++ [10])) := by
  unfold clean_fasta_file
  rw [processAll_append P (H ++ t :: T) Init, hP, Option.some_bind]
  have hT' : (T : List Nat) = T ++ [] := by simp
  rw [hT', processAll_header_line w H t (T ++ []) hH ht,
    processAll_absorb_breaks w T [] hT]
  simp [processAll, eofOutput]

/-- Witness for C10 at the concrete multi-record input `">a\nACGT\n>b\n"`:
the first record has a sequence body (the width is fixed to 4), the input
ends right after the second header's terminator, and the output is
exactly `">a\nACGT\n>b\n"` with nothing synthesized after `"b\n"`. -/
theorem c10_eof_after_header_terminator_witness :
    processAll Init [62, 97, 10, 65, 67, 71, 84, 10, 62] =
      some (RecordHeader (some 4), [62, 97, 10, 65, 67, 71, 84, 10, 62]) ∧
    clean_fasta_file ([62, 97, 10, 65, 67, 71, 84, 10, 62] ++ ([98] ++ 10 :: [])) =
      some ([62, 97, 10, 65, 67, 71, 84, 10, 62] ++ ([98] ++ [10])) :=
  ⟨by decide,
    c10_eof_after_header_terminator [62, 97, 10, 65, 67, 71, 84, 10, 62]
      [62, 97, 10, 65, 67, 71, 84, 10, 62] (some 4) [98] 10 []
      (by decide) (by decide) (by decide) (by decide)⟩

/-!
Wrap-width inference and immutability
-/

/-- The wrap width carried by a state: the `Option<usize>` of the header
states, the fixed width of the two steady sequence states, and `none` for
`Init` and for the still-measuring state. -/
def widthOf : FastaState → Option Nat
  | Init => none
  | RecordHeader w => w
  | RecordHeaderLineBreak w => w
  | RecordSequenceWithoutWidth _ _ => none
  | RecordSequenceLineBreak w _ => some w
  | RecordSequence w _ => some w

/-- All states the loop visits when started in `s` on the given input,
including `s` itself; the trace stops at a panic. -/
def statesFrom : FastaState → List Nat → List FastaState
  | s, [] => [s]
  | s, c :: cs =>
    s :: (match stepChar s c with
      | none => []
      | some (s₁, _) => statesFrom s₁ cs)

/-- A single loop iteration never changes a width that is already set. -/
theorem stepChar_width_stable {s : FastaState} {c : Nat} {s₁ : FastaState} {o₁ : List Nat}
    {w : Nat} (hw : widthOf s = some w) (h : stepChar s c = some (s₁, o₁)) :
    widthOf s₁ = some w := by
  cases s with
  | Init => simp [widthOf] at hw
  | RecordSequenceWithoutWidth cw row => simp [widthOf] at hw
  | RecordHeader w₀ =>
    simp only [widthOf] at hw
    subst hw
    simp only [stepChar] at h
    repeat' split at h
    all_goals
      first
      | exact Option.noConfusion h
      | (simp only [Option.some.injEq, Prod.mk.injEq] at h
         obtain ⟨h1, h2⟩ := h
         subst h1
         rfl)
  | RecordHeaderLineBreak w₀ =>
    simp only [widthOf] at hw
    subst hw
    simp only [stepChar] at h
    repeat' split at h
    all_goals
      first
      | exact Option.noConfusion h
      | (simp only [Option.some.injEq, Prod.mk.injEq] at h
         obtain ⟨h1, h2⟩ := h
         subst h1
         rfl)
  | RecordSequenceLineBreak w₀ row =>
    simp only [widthOf, Option.some.injEq] at hw
    subst hw
    simp only [stepChar] at h
    repeat' split at h
    all_goals
      first
      | exact Option.noConfusion h
      | (simp only [Option.some.injEq, Prod.mk.injEq] at h
         obtain ⟨h1, h2⟩ := h
         subst h1
         rfl)
  | RecordSequence w₀ row =>
    simp only [widthOf, Option.some.injEq] at hw
    subst hw
    simp only [stepChar] at h
    repeat' split at h
    all_goals
      first
      | exact Option.noConfusion h
      | (simp only [Option.some.injEq, Prod.mk.injEq] at h
         obtain ⟨h1, h2⟩ := h
         subst h1
         rfl)

/-- The loop never changes a width that is already set. -/
theorem processAll_width_stable (x : List Nat) :
    ∀ {s s' : FastaState} {o : List Nat} {w : Nat},
      processAll s x = some (s', o) → widthOf s = some w → widthOf s' = some w := by
  induction x with
  | nil =>
    intro s s' o w h hw
    simp only [processAll, Option.some.injEq, Prod.mk.injEq] at h
    obtain ⟨h1, _⟩ := h
    subst h1
    exact hw
  | cons c cs ih =>
    intro s s' o w h hw
    cases hstep : stepChar s c with
    | none =>
      simp [processAll, hstep] at h
    | some p =>
      obtain ⟨s₁, o₁⟩ := p
      rw [processAll_cons_ok hstep] at h
      cases hrec : processAll s₁ cs with
      | none =>
        rw [hrec] at h
        exact Option.noConfusion h
      | some q =>
        obtain ⟨s₂, o₂⟩ := q
        rw [hrec] at h
        simp only [Option.map_some', Option.some.injEq, Prod.mk.injEq] at h
        obtain ⟨h1, _⟩ := h
        subst h1
        exact ih hrec (stepChar_width_stable hw hstep)

/-- Every state visited from a state whose width is set carries that same
width. -/
theorem statesFrom_width_stable (rest : List Nat) :
    ∀ (s : FastaState) (w : Nat), widthOf s = some w →
      ∀ s' ∈ statesFrom s rest, widthOf s' = some w := by
  induction rest with
  | nil =>
    intro s w hw s' hs'
    simp only [statesFrom, List.mem_singleton] at hs'
    subst hs'
    exact hw
  | cons c cs ih =>
    intro s w hw s' hs'
    cases hstep : stepChar s c with
    | none =>
      simp only [statesFrom, hstep, List.mem_singleton] at hs'
      subst hs'
      exact hw
    | some p =>
      obtain ⟨s₁, o₁⟩ := p
      simp only [statesFrom, hstep, List.mem_cons] at hs'
      rcases hs' with h | h
      · subst h; exact hw
      · exact ih s₁ w (stepChar_width_stable hw hstep) s' h

/-- While in `RecordSequenceWithoutWidth`, every raw character of the
line — kept or dropped — increments `current_width` by one, and the line
terminator moves to `RecordSequenceLineBreak` carrying exactly the raw
count as the now-fixed width. -/
theorem processAll_measuring (L : List Nat) :
    ∀ (cw row : Nat), (∀ b ∈ L, isLineBreak b = false ∧ b ≠ 62) →
      ∀ t, isLineBreak t = true →
      ∃ r o, processAll (RecordSequenceWithoutWidth cw row) (L ++ [t]) =
        some (RecordSequenceLineBreak (cw + L.length) r, o) := by
  induction L with
  | nil =>
    intro cw row _ t ht
    by_cases hrc : row = cw
    · have hstep : stepChar (RecordSequenceWithoutWidth cw row) t =
          some (RecordSequenceLineBreak cw 0, [10]) := by
        simp [stepChar, ht, hrc]
      refine ⟨0, [10], ?_⟩
      rw [List.nil_append]
      rw [show ([t] : List Nat) = t :: [] from rfl, processAll_cons_ok hstep]
      simp [processAll]
    · have hstep : stepChar (RecordSequenceWithoutWidth cw row) t =
          some (RecordSequenceLineBreak cw row, []) := by
        simp [stepChar, ht, hrc]
      refine ⟨row, [], ?_⟩
      rw [List.nil_append]
      rw [show ([t] : List Nat) = t :: [] from rfl, processAll_cons_ok hstep]
      simp [processAll]
  | cons b L ih =>
    intro cw row hL t ht
    obtain ⟨hb1, hb2⟩ := hL b (List.mem_cons_self b L)
    have hLtail : ∀ x ∈ L, isLineBreak x = false ∧ x ≠ 62 :=
      fun x hx => hL x (List.mem_cons_of_mem b hx)
    by_cases hcanon : isCanonicalBase (to_ascii_uppercase b) = true
    · have hstep : stepChar (RecordSequenceWithoutWidth cw row) b =
          some (RecordSequenceWithoutWidth (cw + 1) (row + 1), [to_ascii_uppercase b]) := by
        simp [stepChar, hb1, hb2, hcanon]
      obtain ⟨r, o, hrec⟩ := ih (cw + 1) (row + 1) hLtail t ht
      refine ⟨r, to_ascii_uppercase b :: o, ?_⟩
      rw [List.cons_append, processAll_cons_ok hstep, hrec]
      have harith : cw + 1 + L.length = cw + (b :: L).length := by
        simp [List.length_cons]; omega
      rw [harith]
      rfl
    · have hstep : stepChar (RecordSequenceWithoutWidth cw row) b =
          some (RecordSequenceWithoutWidth (cw + 1) row, []) := by
        simp [stepChar, hb1, hb2, hcanon]
      obtain ⟨r, o, hrec⟩ := ih (cw + 1) row hLtail t ht
      refine ⟨r, o, ?_⟩
      rw [List.cons_append, processAll_cons_ok hstep, hrec]
      have harith : cw + 1 + L.length = cw + (b :: L).length := by
        simp [List.length_cons]; omega
      rw [harith]
      rfl

/-- **C4.** The wrap width is set exactly once per run: after any prefix
`P` that ends at a header boundary with no width yet (so `P` may contain
any number of records without a sequence body), consuming the first
sequence line `c :: L` — counting every raw character, kept or dropped,
but not the line terminator `t` — fixes the width to `(c :: L).length`,
and from that point on every state the automaton visits, over an
arbitrary continuation `rest` of the input, carries exactly that width
unchanged until end of input. -/
theorem c4_width_set_once_then_immutable (P o : List Nat) (c : Nat) (L rest : List Nat)
    (t : Nat) (hP : processAll Init P = some (RecordHeaderLineBreak none, o))
    (hc : isLineBreak c = false ∧ c ≠ 62)
    (hL : ∀ b ∈ L, isLineBreak b = false ∧ b ≠ 62) (ht : isLineBreak t = true) :
    ∃ r o', processAll Init (P ++ c :: (L ++ [t])) =
        some (RecordSequenceLineBreak (c :: L).length r, o') ∧
      ∀ s ∈ statesFrom (RecordSequenceLineBreak (c :: L).length r) rest,
        widthOf s = some (c :: L).length := by
  have hstep : stepChar (RecordHeaderLineBreak none) c =
      some (RecordSequenceWithoutWidth 1 1, [to_ascii_uppercase c]) := by
    simp [stepChar, hc.1, hc.2]
  obtain ⟨r, o₁, hmeas⟩ := processAll_measuring L 1 1 hL t ht
  have hlen : 1 + L.length = (c :: L).length := by simp [List.length_cons]; omega
  rw [hlen] at hmeas
  refine ⟨r, o ++ to_ascii_uppercase c :: o₁, ?_, ?_⟩
  · rw [processAll_append P (c :: (L ++ [t])) Init, hP, Option.some_bind,
      processAll_cons_ok hstep (L ++ [t]), hmeas]
    rfl
  · exact statesFrom_width_stable rest (RecordSequenceLineBreak (c :: L).length r)
      (c :: L).length rfl

/-- Witness for C4: prefix `">h\n"`, first sequence line `"Ax"` (one kept
and one dropped character, raw count 2), terminator `\n`, continuation
`">g\nC"` which drives the automaton through header, header-boundary and
sequence states — all carrying width 2. -/
theorem c4_width_set_once_then_immutable_witness :
    processAll Init [62, 104, 10] = some (RecordHeaderLineBreak none, [62, 104, 10]) ∧
    (∃ r o', processAll Init ([62, 104, 10] ++ 65 :: ([120] ++ [10])) =
        some (RecordSequenceLineBreak ([65, 120] : List Nat).length r, o') ∧
      ∀ s ∈ statesFrom (RecordSequenceLineBreak ([65, 120] : List Nat).length r)
          [62, 103, 10, 67],
        widthOf s = some ([65, 120] : List Nat).length) :=
  ⟨by decide,
    c4_width_set_once_then_immutable [62, 104, 10] [62, 104, 10] 65 [120]
      [62, 103, 10, 67] 10 (by decide) (by decide) (by decide) (by decide)⟩

/-!
The width invariant (C5)

`widthScan w mode row o` scans an output byte string and checks the
spec's width invariant for wrap width `w`: every sequence line (a line
not beginning with `>`) that is *not* the last sequence line of its
record — i.e. that is followed by another sequence line — has length
exactly `w`, and every sequence line that *is* the last of its record
(followed by a header line or by the end of the output) has length at
most `w`. `mode` is the scanner position (start of line / inside a
header line / inside a sequence line) and `row` the number of bytes of
the current sequence line already seen.
-/

def widthScan (w : Nat) : LineMode → Nat → List Nat → Bool
  | LineMode.start, _, [] => true
  | LineMode.header, _, [] => true
  | LineMode.seq, row, [] => decide (row ≤ w)
  | LineMode.start, _, b :: o =>
    if b == 62 then widthScan w LineMode.header 0 o
    else if b == 10 then
      if 0 == w then widthScan w LineMode.start 0 o
      else
        match o with
        | [] => true
        | b' :: _ => b' == 62 && widthScan w LineMode.start 0 o
    else widthScan w LineMode.seq 1 o
  | LineMode.header, _, b :: o =>
    if b == 10 then widthScan w LineMode.start 0 o
    else widthScan w LineMode.header 0 o
  | LineMode.seq, row, b :: o =>
    if b == 10 then
      if row == w then widthScan w LineMode.start 0 o
      else
        match o with
        | [] => decide (row < w)
        | b' :: _ => decide (row < w) && b' == 62 && widthScan w LineMode.start 0 o
    else widthScan w LineMode.seq (row + 1) o

/-- The scanner position corresponding to each automaton state: the
states that sit at a line boundary (or before the first line) scan from
the start of a line, `RecordHeader` scans inside a header line, and a
sequence state with a non-empty current output row scans inside a
sequence line at offset `row`. -/
def stateScan (w : Nat) : FastaState → List Nat → Bool
  | Init, o => widthScan w LineMode.start 0 o
  | RecordHeader _, o => widthScan w LineMode.header 0 o
  | RecordHeaderLineBreak _, o => widthScan w LineMode.start 0 o
  | RecordSequenceWithoutWidth _ row, o =>
    if row == 0 then widthScan w LineMode.start 0 o else widthScan w LineMode.seq row o
  | RecordSequenceLineBreak _ row, o =>
    if row == 0 then widthScan w LineMode.start 0 o else widthScan w LineMode.seq row o
  | RecordSequence _ row, o =>
    if row == 0 then widthScan w LineMode.start 0 o else widthScan w LineMode.seq row o

/-- Invariant tying a state to the width `w` the run will end with: a
header state either has no width yet or carries exactly `some w` with
`w ≥ 1`; the measuring state has written at most as many bytes to the
current row as it has counted raw characters (and at least the one
unconditionally written first sequence byte); a steady sequence state
carries exactly `w ≥ 1` and a row of at most `w` bytes. -/
def statePre (w : Nat) : FastaState → Prop
  | Init => True
  | RecordHeader w₀ => w₀ = none ∨ (w₀ = some w ∧ 1 ≤ w)
  | RecordHeaderLineBreak w₀ => w₀ = none ∨ (w₀ = some w ∧ 1 ≤ w)
  | RecordSequenceWithoutWidth cw row => 1 ≤ row ∧ row ≤ cw
  | RecordSequenceLineBreak w₀ row => w₀ = w ∧ row ≤ w ∧ 1 ≤ w
  | RecordSequence w₀ row => w₀ = w ∧ row ≤ w ∧ 1 ≤ w

/-- The wrap width inferred by a terminating run: the width carried by
the state the loop is in when end of input is reached. By
`processAll_width_stable` this is the width fixed at the first line
terminator of the first measured sequence line. -/
def inferredWidth (input : List Nat) : Option Nat :=
  match processAll Init input with
  | none => none
  | some (s, _) => widthOf s

/-- Uppercasing a byte that is neither `\n` nor `>` yields a byte that is
neither `\n` nor `>` (the lowercase range maps into `A`..`Z`). -/
theorem to_ascii_uppercase_ne {c : Nat} (h10 : c ≠ 10) (h62 : c ≠ 62) :
    to_ascii_uppercase c ≠ 10 ∧ to_ascii_uppercase c ≠ 62 := by
  unfold to_ascii_uppercase
  split
  · omega
  · exact ⟨h10, h62⟩

/-- Decomposing a successful run across its first consumed byte. -/
theorem processAll_cons_elim {s s₁ : FastaState} {c : Nat} {o₁ : List Nat} {cs : List Nat}
    {s' : FastaState} {o : List Nat} (hstep : stepChar s c = some (s₁, o₁))
    (h : processAll s (c :: cs) = some (s', o)) :
    ∃ o₂, processAll s₁ cs = some (s', o₂) ∧ o = o₁ ++ o₂ := by
  rw [processAll_cons_ok hstep] at h
  cases hrec : processAll s₁ cs with
  | none => rw [hrec] at h; exact Option.noConfusion h
  | some q =>
    obtain ⟨s₂, o₂⟩ := q
    rw [hrec] at h
    simp only [Option.map_some', Option.some.injEq, Prod.mk.injEq] at h
    obtain ⟨h1, h2⟩ := h
    subst h1
    exact ⟨o₂, rfl, h2.symm⟩

/-- At the end of the output, a line boundary is always acceptable. -/
theorem widthScan_start_final (w : Nat) : widthScan w LineMode.start 0 [10] = true := by
  by_cases h : 0 = w
  · simp [widthScan, h]
  · simp [widthScan, h]

/-- At the end of the output, a sequence line of at most `w` bytes
followed by the final newline is acceptable. -/
theorem widthScan_seq_final {w row : Nat} (h : row ≤ w) :
    widthScan w LineMode.seq row [10] = true := by
  by_cases hrw : row = w
  · simp [widthScan, hrw]
  · have : row < w := by omega
    simp [widthScan, hrw, this]

/-- Invariant propagation for the whole run: if the loop, started in a
state satisfying `statePre w`, consumes all of `x` without panicking and
the final state carries width `w`, then the bytes it wrote — followed by
the final state's end-of-input output — pass the width scanner at the
scanner position of the start state. -/
theorem widthScan_master (x : List Nat) :
    ∀ (s s' : FastaState) (o : List Nat) (w : Nat),
      processAll s x = some (s', o) → widthOf s' = some w → statePre w s →
      stateScan w s (o ++ eofOutput s') = true := by
  induction x with
  | nil =>
    intro s s' o w h hw hpre
    simp only [processAll, Option.some.injEq, Prod.mk.injEq] at h
    obtain ⟨h1, h2⟩ := h
    subst h1
    subst h2
    cases s with
    | Init => simp [widthOf] at hw
    | RecordSequenceWithoutWidth cw row => simp [widthOf] at hw
    | RecordHeader w₀ => rfl
    | RecordHeaderLineBreak w₀ => rfl
    | RecordSequenceLineBreak w₀ row =>
      obtain ⟨hww, hrw, h1w⟩ := hpre
      have hww' : w = w₀ := hww.symm
      subst hww'
      by_cases hr0 : row = 0
      · simp only [stateScan, hr0, List.nil_append, eofOutput]
        simpa using widthScan_start_final w
      · have hr0' : (row == 0) = false := by simp [hr0]
        simp only [stateScan, hr0', List.nil_append, eofOutput, if_false, Bool.false_eq_true]
        exact widthScan_seq_final hrw
    | RecordSequence w₀ row =>
      obtain ⟨hww, hrw, h1w⟩ := hpre
      have hww' : w = w₀ := hww.symm
      subst hww'
      by_cases hr0 : row = 0
      · simp only [stateScan, hr0, List.nil_append, eofOutput]
        simpa using widthScan_start_final w
      · have hr0' : (row == 0) = false := by simp [hr0]
        simp only [stateScan, hr0', List.nil_append, eofOutput, if_false, Bool.false_eq_true]
        exact widthScan_seq_final hrw
  | cons c cs ih =>
    intro s s' o w h hw hpre
    cases s with
    | Init =>
      by_cases h62 : c = 62
      · have hstep : stepChar Init c = some (RecordHeader none, [62]) := by
          simp [stepChar, h62]
        obtain ⟨o₂, hrec, ho⟩ := processAll_cons_elim hstep h
        rw [ho]
        have hIH := ih (RecordHeader none) s' o₂ w hrec hw (Or.inl rfl)
        simpa [stateScan, widthScan, List.append_assoc] using hIH
      · by_cases hws : is_ascii_whitespace c = true
        · have hstep : stepChar Init c = some (Init, []) := by
            simp [stepChar, h62, hws]
          obtain ⟨o₂, hrec, ho⟩ := processAll_cons_elim hstep h
          rw [ho]
          have hIH := ih Init s' o₂ w hrec hw hpre
          simpa [stateScan, List.append_assoc] using hIH
        · simp [processAll, stepChar, h62, hws] at h
    | RecordHeader w₀ =>
      by_cases hbr : isLineBreak c = true
      · have hstep : stepChar (RecordHeader w₀) c = some (RecordHeaderLineBreak w₀, [10]) := by
          simp [stepChar, hbr]
        obtain ⟨o₂, hrec, ho⟩ := processAll_cons_elim hstep h
        rw [ho]
        have hIH := ih (RecordHeaderLineBreak w₀) s' o₂ w hrec hw hpre
        simpa [stateScan, widthScan, List.append_assoc] using hIH
      · have hbrf : isLineBreak c = false := by simpa using hbr
        have hc10 : c ≠ 10 := by simp [isLineBreak] at hbrf; exact hbrf.1
        have hstep : stepChar (RecordHeader w₀) c = some (RecordHeader w₀, [c]) := by
          simp [stepChar, hbrf]
        obtain ⟨o₂, hrec, ho⟩ := processAll_cons_elim hstep h
        rw [ho]
        have hIH := ih (RecordHeader w₀) s' o₂ w hrec hw hpre
        simpa [stateScan, widthScan, List.append_assoc, hc10] using hIH
    | RecordHeaderLineBreak w₀ =>
      by_cases hbr : isLineBreak c = true
      · have hstep : stepChar (RecordHeaderLineBreak w₀) c =
            some (RecordHeaderLineBreak w₀, []) := by
          simp [stepChar, hbr]
        obtain ⟨o₂, hrec, ho⟩ := processAll_cons_elim hstep h
        rw [ho]
        have hIH := ih (RecordHeaderLineBreak w₀) s' o₂ w hrec hw hpre
        simpa [stateScan, List.append_assoc] using hIH
      · have hbrf : isLineBreak c = false := by simpa using hbr
        have hc10 : c ≠ 10 := by simp [isLineBreak] at hbrf; exact hbrf.1
        by_cases h62 : c = 62
        · subst h62
          have hstep : stepChar (RecordHeaderLineBreak w₀) 62 =
              some (RecordHeader w₀, [62]) := by
            simp [stepChar, isLineBreak]
          obtain ⟨o₂, hrec, ho⟩ := processAll_cons_elim hstep h
          rw [ho]
          have hIH := ih (RecordHeader w₀) s' o₂ w hrec hw hpre
          simpa [stateScan, widthScan, List.append_assoc] using hIH
        · obtain ⟨hu10, hu62⟩ := to_ascii_uppercase_ne hc10 h62
          rcases hpre with hnone | ⟨hsome, h1w⟩
          · subst hnone
            have hstep : stepChar (RecordHeaderLineBreak none) c =
                some (RecordSequenceWithoutWidth 1 1, [to_ascii_uppercase c]) := by
              simp [stepChar, hbrf, h62]
            obtain ⟨o₂, hrec, ho⟩ := processAll_cons_elim hstep h
            rw [ho]
            have hIH := ih (RecordSequenceWithoutWidth 1 1) s' o₂ w hrec hw
              ⟨le_refl 1, le_refl 1⟩
            simpa [stateScan, widthScan, List.append_assoc, hu10, hu62] using hIH
          · subst hsome
            have hstep : stepChar (RecordHeaderLineBreak (some w)) c =
                some (RecordSequence w 1, [to_ascii_uppercase c]) := by
              simp [stepChar, hbrf, h62]
            obtain ⟨o₂, hrec, ho⟩ := processAll_cons_elim hstep h
            rw [ho]
            have hIH := ih (RecordSequence w 1) s' o₂ w hrec hw ⟨rfl, h1w, h1w⟩
            simpa [stateScan, widthScan, List.append_assoc, hu10, hu62] using hIH
    | RecordSequenceWithoutWidth cw row =>
      obtain ⟨h1r, hrcw⟩ := hpre
      have hr0 : row ≠ 0 := by omega
      by_cases hbr : isLineBreak c = true
      · by_cases hfl : row = cw
        · have hstep : stepChar (RecordSequenceWithoutWidth cw row) c =
              some (RecordSequenceLineBreak cw 0, [10]) := by
            simp [stepChar, hbr, hfl]
          obtain ⟨o₂, hrec, ho⟩ := processAll_cons_elim hstep h
          rw [ho]
          have hwidth : widthOf s' = some cw :=
            processAll_width_stable cs hrec rfl
          have hcww : w = cw := by
            rw [hwidth] at hw
            exact (Option.some.inj hw).symm
          subst hcww
          have hIH := ih (RecordSequenceLineBreak w 0) s' o₂ w hrec hw
            ⟨rfl, Nat.zero_le w, by omega⟩
          have hroww : row = w := hfl
          have hw0 : w ≠ 0 := by omega
          simpa [stateScan, widthScan, List.append_assoc, hr0, hroww, hw0] using hIH
        · have hstep : stepChar (RecordSequenceWithoutWidth cw row) c =
              some (RecordSequenceLineBreak cw row, []) := by
            simp [stepChar, hbr, hfl]
          obtain ⟨o₂, hrec, ho⟩ := processAll_cons_elim hstep h
          rw [ho]
          have hwidth : widthOf s' = some cw :=
            processAll_width_stable cs hrec rfl
          have hcww : w = cw := by
            rw [hwidth] at hw
            exact (Option.some.inj hw).symm
          subst hcww
          have hIH := ih (RecordSequenceLineBreak w row) s' o₂ w hrec hw
            ⟨rfl, hrcw, by omega⟩
          simpa [stateScan, List.append_assoc] using hIH
      · have hbrf : isLineBreak c = false := by simpa using hbr
        have hc10 : c ≠ 10 := by simp [isLineBreak] at hbrf; exact hbrf.1
        by_cases h62 : c = 62
        · subst h62
          simp [processAll, stepChar, isLineBreak] at h
        · obtain ⟨hu10, hu62⟩ := to_ascii_uppercase_ne hc10 h62
          by_cases hcan : isCanonicalBase (to_ascii_uppercase c) = true
          · have hstep : stepChar (RecordSequenceWithoutWidth cw row) c =
                some (RecordSequenceWithoutWidth (cw + 1) (row + 1), [to_ascii_uppercase c]) := by
              simp [stepChar, hbrf, h62, hcan]
            obtain ⟨o₂, hrec, ho⟩ := processAll_cons_elim hstep h
            rw [ho]
            have hIH := ih (RecordSequenceWithoutWidth (cw + 1) (row + 1)) s' o₂ w hrec hw
              ⟨by omega, by omega⟩
            simpa [stateScan, widthScan, List.append_assoc, hr0, hu10] using hIH
          · have hstep : stepChar (RecordSequenceWithoutWidth cw row) c =
                some (RecordSequenceWithoutWidth (cw + 1) row, []) := by
              simp [stepChar, hbrf, h62, hcan]
            obtain ⟨o₂, hrec, ho⟩ := processAll_cons_elim hstep h
            rw [ho]
            have hIH := ih (RecordSequenceWithoutWidth (cw + 1) row) s' o₂ w hrec hw
              ⟨by omega, by omega⟩
            simpa [stateScan, List.append_assoc] using hIH
    | RecordSequenceLineBreak w₀ row =>
      obtain ⟨hww, hrw, h1w⟩ := hpre
      have hww' : w = w₀ := hww.symm
      subst hww'
      by_cases hbr : isLineBreak c = true
      · have hstep : stepChar (RecordSequenceLineBreak w row) c =
            some (RecordSequenceLineBreak w row, []) := by
          simp [stepChar, hbr]
        obtain ⟨o₂, hrec, ho⟩ := processAll_cons_elim hstep h
        rw [ho]
        have hIH := ih (RecordSequenceLineBreak w row) s' o₂ w hrec hw ⟨rfl, hrw, h1w⟩
        simpa [stateScan, List.append_assoc] using hIH
      · have hbrf : isLineBreak c = false := by simpa using hbr
        have hc10 : c ≠ 10 := by simp [isLineBreak] at hbrf; exact hbrf.1
        by_cases h62 : c = 62
        · subst h62
          by_cases hrpos : row > 0
          · have hstep : stepChar (RecordSequenceLineBreak w row) 62 =
                some (RecordHeader (some w), [10, 62]) := by
              simp [stepChar, isLineBreak, hrpos]
            obtain ⟨o₂, hrec, ho⟩ := processAll_cons_elim hstep h
            rw [ho]
            have hIH := ih (RecordHeader (some w)) s' o₂ w hrec hw (Or.inr ⟨rfl, h1w⟩)
            have hr0 : row ≠ 0 := by omega
            by_cases hroww : row = w
            · simpa [stateScan, widthScan, List.append_assoc, hr0, hroww] using hIH
            · have hlt : row < w := by omega
              simpa [stateScan, widthScan, List.append_assoc, hr0, hroww, hlt] using hIH
          · have hrow0 : row = 0 := by omega
            subst hrow0
            have hstep : stepChar (RecordSequenceLineBreak w 0) 62 =
                some (RecordHeader (some w), [62]) := by
              simp [stepChar, isLineBreak]
            obtain ⟨o₂, hrec, ho⟩ := processAll_cons_elim hstep h
            rw [ho]
            have hIH := ih (RecordHeader (some w)) s' o₂ w hrec hw (Or.inr ⟨rfl, h1w⟩)
            simpa [stateScan, widthScan, List.append_assoc] using hIH
        · obtain ⟨hu10, hu62⟩ := to_ascii_uppercase_ne hc10 h62
          by_cases hfl : row = w
          · have hr0 : row ≠ 0 := by omega
            by_cases hcan : isCanonicalBase (to_ascii_uppercase c) = true
            · have hstep : stepChar (RecordSequenceLineBreak w row) c =
                  some (RecordSequence w 1, [10, to_ascii_uppercase c]) := by
                simp [stepChar, hbrf, h62, hcan, hfl]
              obtain ⟨o₂, hrec, ho⟩ := processAll_cons_elim hstep h
              rw [ho]
              have hIH := ih (RecordSequence w 1) s' o₂ w hrec hw ⟨rfl, h1w, h1w⟩
              have hw0 : w ≠ 0 := by omega
              simpa [stateScan, widthScan, List.append_assoc, hr0, hfl, hw0, hu10, hu62] using hIH
            · have hstep : stepChar (RecordSequenceLineBreak w row) c =
                  some (RecordSequence w 0, [10]) := by
                simp [stepChar, hbrf, h62, hcan, hfl]
              obtain ⟨o₂, hrec, ho⟩ := processAll_cons_elim hstep h
              rw [ho]
              have hIH := ih (RecordSequence w 0) s' o₂ w hrec hw
                ⟨rfl, Nat.zero_le w, h1w⟩
              have hw0 : w ≠ 0 := by omega
              simpa [stateScan, widthScan, List.append_assoc, hr0, hfl, hw0] using hIH
          · by_cases hcan : isCanonicalBase (to_ascii_uppercase c) = true
            · have hstep : stepChar (RecordSequenceLineBreak w row) c =
                  some (RecordSequence w (row + 1), [to_ascii_uppercase c]) := by
                simp [stepChar, hbrf, h62, hcan, hfl]
              obtain ⟨o₂, hrec, ho⟩ := processAll_cons_elim hstep h
              rw [ho]
              have hIH := ih (RecordSequence w (row + 1)) s' o₂ w hrec hw
                ⟨rfl, by omega, h1w⟩
              by_cases hr0 : row = 0
              · subst hr0
                simpa [stateScan, widthScan, List.append_assoc, hu10, hu62] using hIH
              · simpa [stateScan, widthScan, List.append_assoc, hr0, hu10] using hIH
            · have hstep : stepChar (RecordSequenceLineBreak w row) c =
                  some (RecordSequence w row, []) := by
                simp [stepChar, hbrf, h62, hcan, hfl]
              obtain ⟨o₂, hrec, ho⟩ := processAll_cons_elim hstep h
              rw [ho]
              have hIH := ih (RecordSequence w row) s' o₂ w hrec hw ⟨rfl, hrw, h1w⟩
              simpa [stateScan, List.append_assoc] using hIH
    | RecordSequence w₀ row =>
      obtain ⟨hww, hrw, h1w⟩ := hpre
      have hww' : w = w₀ := hww.symm
      subst hww'
      by_cases hbr : isLineBreak c = true
      · by_cases hfl : row = w
        · have hr0 : row ≠ 0 := by omega
          have hstep : stepChar (RecordSequence w row) c =
              some (RecordSequenceLineBreak w 0, [10]) := by
            simp [stepChar, hbr, hfl]
          obtain ⟨o₂, hrec, ho⟩ := processAll_cons_elim hstep h
          rw [ho]
          have hIH := ih (RecordSequenceLineBreak w 0) s' o₂ w hrec hw
            ⟨rfl, Nat.zero_le w, h1w⟩
          have hw0 : w ≠ 0 := by omega
          simpa [stateScan, widthScan, List.append_assoc, hr0, hfl, hw0] using hIH
        · have hstep : stepChar (RecordSequence w row) c =
              some (RecordSequenceLineBreak w row, []) := by
            simp [stepChar, hbr, hfl]
          obtain ⟨o₂, hrec, ho⟩ := processAll_cons_elim hstep h
          rw [ho]
          have hIH := ih (RecordSequenceLineBreak w row) s' o₂ w hrec hw ⟨rfl, hrw, h1w⟩
          simpa [stateScan, List.append_assoc] using hIH
      · have hbrf : isLineBreak c = false := by simpa using hbr
        have hc10 : c ≠ 10 := by simp [isLineBreak] at hbrf; exact hbrf.1
        by_cases h62 : c = 62
        · subst h62
          simp [processAll, stepChar, isLineBreak] at h
        · obtain ⟨hu10, hu62⟩ := to_ascii_uppercase_ne hc10 h62
          by_cases hfl : row = w
          · have hr0 : row ≠ 0 := by omega
            by_cases hcan : isCanonicalBase (to_ascii_uppercase c) = true
            · have hstep : stepChar (RecordSequence w row) c =
                  some (RecordSequence w 1, [10, to_ascii_uppercase c]) := by
                simp [stepChar, hbrf, h62, hcan, hfl]
              obtain ⟨o₂, hrec, ho⟩ := processAll_cons_elim hstep h
              rw [ho]
              have hIH := ih (RecordSequence w 1) s' o₂ w hrec hw ⟨rfl, h1w, h1w⟩
              have hw0 : w ≠ 0 := by omega
              simpa [stateScan, widthScan, List.append_assoc, hr0, hfl, hw0, hu10, hu62] using hIH
            · have hstep : stepChar (RecordSequence w row) c =
                  some (RecordSequence w 0, [10]) := by
                simp [stepChar, hbrf, h62, hcan, hfl]
              obtain ⟨o₂, hrec, ho⟩ := processAll_cons_elim hstep h
              rw [ho]
              have hIH := ih (RecordSequence w 0) s' o₂ w hrec hw
                ⟨rfl, Nat.zero_le w, h1w⟩
              have hw0 : w ≠ 0 := by omega
              simpa [stateScan, widthScan, List.append_assoc, hr0, hfl, hw0] using hIH
          · by_cases hcan : isCanonicalBase (to_ascii_uppercase c) = true
            · have hstep : stepChar (RecordSequence w row) c =
                  some (RecordSequence w (row + 1), [to_ascii_uppercase c]) := by
                simp [stepChar, hbrf, h62, hcan, hfl]
              obtain ⟨o₂, hrec, ho⟩ := processAll_cons_elim hstep h
              rw [ho]
              have hIH := ih (RecordSequence w (row + 1)) s' o₂ w hrec hw
                ⟨rfl, by omega, h1w⟩
              by_cases hr0 : row = 0
              · subst hr0
                simpa [stateScan, widthScan, List.append_assoc, hu10, hu62] using hIH
              · simpa [stateScan, widthScan, List.append_assoc, hr0, hu10] using hIH
            · have hstep : stepChar (RecordSequence w row) c =
                  some (RecordSequence w row, []) := by
                simp [stepChar, hbrf, h62, hcan, hfl]
              obtain ⟨o₂, hrec, ho⟩ := processAll_cons_elim hstep h
              rw [ho]
              have hIH := ih (RecordSequence w row) s' o₂ w hrec hw ⟨rfl, hrw, h1w⟩
              simpa [stateScan, List.append_assoc] using hIH

/-- **C5.** For every input on which `clean_fasta_file` terminates
without error and for which a wrap width was inferred, the output passes
`widthScan`: every output sequence line that is not the last sequence
line of its record (i.e. is followed by another sequence line) has
length exactly the run's inferred wrap width, and the last sequence line
of each record (followed by a header line or by the end of the output)
has length between 0 and the wrap width inclusive. -/
theorem c5_width_invariant (x O : List Nat) (w : Nat)
    (hrun : clean_fasta_file x = some O) (hw : inferredWidth x = some w) :
    widthScan w LineMode.start 0 O = true := by
  unfold clean_fasta_file at hrun
  unfold inferredWidth at hw
  cases hp : processAll Init x with
  | none =>
    rw [hp] at hrun
    exact Option.noConfusion hrun
  | some p =>
    obtain ⟨s, o⟩ := p
    rw [hp] at hrun hw
    simp only [Option.some.injEq] at hrun
    subst hrun
    exact widthScan_master x Init s o w hp hw (by simp [statePre])

/-- Witness for C5 at the concrete input `">h\nAA\n"` (inferred width 2):
the output `">h\nAA\n\n"` — a full sequence line of length 2 plus an
empty last line — passes the width scanner. -/
theorem c5_width_invariant_witness :
    clean_fasta_file [62, 104, 10, 65, 65, 10] = some [62, 104, 10, 65, 65, 10, 10] ∧
    inferredWidth [62, 104, 10, 65, 65, 10] = some 2 ∧
    widthScan 2 LineMode.start 0 [62, 104, 10, 65, 65, 10, 10] = true :=
  ⟨by decide, by decide,
    c5_width_invariant [62, 104, 10, 65, 65, 10] [62, 104, 10, 65, 65, 10, 10] 2
      (by decide) (by decide)⟩
